import Mathlib

/-!
Shallow embedding of the PunchPro data-cleaning logic (src/Home.py).

Cells are modelled as `Option String` (`none` stands for a pandas NaN /
undefined value).  Machine text is modelled as `String` / `List Char`;
the regular expressions of the source are modelled as explicit
recursive matchers with the same semantics on the inputs the program
feeds them.
-/

namespace PunchPro

/-! ### Decimal rendering of naturals (model of Python f-string `{n}`) -/

/-- Fuel-driven decimal rendering, most significant digit first. -/
def natCharsAux : Nat → Nat → List Char
  | 0, _ => []
  | fuel + 1, n =>
    if n < 10 then [Nat.digitChar n]
    else natCharsAux fuel (n / 10) ++ [Nat.digitChar (n % 10)]

/-- Decimal digit characters of `n`, e.g. `natChars 12 = ['1', '2']`. -/
def natChars (n : Nat) : List Char := natCharsAux (n + 1) n

/-- Decimal rendering of a natural, as Python `str(n)` / f-string `{n}`. -/
def natToString (n : Nat) : String := ⟨natChars n⟩

/-- Numeric value of a list of decimal digit characters (as Python `int`). -/
def digitsToNat (ds : List Char) : Nat :=
  ds.foldl (fun a c => 10 * a + (c.toNat - 48)) 0

theorem natCharsAux_succ (fuel n : Nat) :
    natCharsAux (fuel + 1) n = if n < 10 then [Nat.digitChar n]
      else natCharsAux fuel (n / 10) ++ [Nat.digitChar (n % 10)] := rfl

theorem natCharsAux_irrel (f : Nat) : ∀ g n, n < f → n < g →
    natCharsAux f n = natCharsAux g n := by
  induction f with
  | zero => intro g n h _; omega
  | succ f ih =>
    intro g n hf hg
    cases g with
    | zero => omega
    | succ g =>
      rw [natCharsAux_succ, natCharsAux_succ]
      by_cases h10 : n < 10
      · simp [h10]
      · have hdiv : n / 10 < n := Nat.div_lt_self (by omega) (by omega)
        rw [if_neg h10, if_neg h10, ih g (n / 10) (by omega) (by omega)]

theorem natChars_eq (n : Nat) :
    natChars n = if n < 10 then [Nat.digitChar n]
                 else natChars (n / 10) ++ [Nat.digitChar (n % 10)] := by
  show natCharsAux (n + 1) n = _
  rw [natCharsAux_succ]
  by_cases h10 : n < 10
  · rw [if_pos h10, if_pos h10]
  · have hdiv : n / 10 < n := Nat.div_lt_self (by omega) (by omega)
    rw [if_neg h10, if_neg h10,
      natCharsAux_irrel n (n / 10 + 1) (n / 10) (by omega) (by omega)]
    rfl

theorem digitChar_isDigit {d : Nat} (h : d < 10) : (Nat.digitChar d).isDigit = true := by
  interval_cases d <;> decide

theorem digitChar_val {d : Nat} (h : d < 10) : (Nat.digitChar d).toNat - 48 = d := by
  interval_cases d <;> decide

theorem natChars_all_digit (n : Nat) : ∀ c ∈ natChars n, c.isDigit = true := by
  induction n using Nat.strong_induction_on with
  | _ n ih =>
    rw [natChars_eq]
    by_cases h10 : n < 10
    · simp only [h10, if_true, List.mem_singleton]
      intro c hc; subst hc; exact digitChar_isDigit h10
    · have hdiv : n / 10 < n := Nat.div_lt_self (by omega) (by omega)
      simp only [h10, if_false, List.mem_append, List.mem_singleton]
      intro c hc
      rcases hc with hc | hc
      · exact ih (n / 10) hdiv c hc
      · subst hc; exact digitChar_isDigit (Nat.mod_lt _ (by omega))

theorem natChars_ne_nil (n : Nat) : natChars n ≠ [] := by
  rw [natChars_eq]
  by_cases h10 : n < 10 <;> simp [h10]

theorem digitsToNat_append_last (ds : List Char) (c : Char) :
    digitsToNat (ds ++ [c]) = 10 * digitsToNat ds + (c.toNat - 48) := by
  simp [digitsToNat, List.foldl_append]

theorem digitsToNat_natChars (n : Nat) : digitsToNat (natChars n) = n := by
  induction n using Nat.strong_induction_on with
  | _ n ih =>
    rw [natChars_eq]
    by_cases h10 : n < 10
    · simp only [h10, if_true]
      show 10 * 0 + ((Nat.digitChar n).toNat - 48) = n
      rw [digitChar_val h10]
      omega
    · have hdiv : n / 10 < n := Nat.div_lt_self (by omega) (by omega)
      simp only [h10, if_false]
      rw [digitsToNat_append_last, ih (n / 10) hdiv,
          digitChar_val (Nat.mod_lt _ (by omega))]
      omega

theorem natToString_inj {m n : Nat} (h : natToString m = natToString n) : m = n := by
  have : natChars m = natChars n := congrArg String.data h
  rw [← digitsToNat_natChars m, ← digitsToNat_natChars n, this]

/-! ### Punch column names and their parser

The source builds column names with f-strings (`f"Time In {in_count}"`, …)
and recognises them later with `re.match(r"(Time In|Time Out|Stay Duration) (\d+)", col)`
(and the equivalent pattern `r'Time (In|Out) \d+|Stay Duration \d+'` for the
fixed-column partition).  Both regexes anchor at the start of the string
only (`re.match` is a prefix match) and capture the maximal digit run
following the kind word and space. -/

/-- The three kinds of synthesized punch columns. -/
inductive Kind
  | timeIn
  | timeOut
  | stayDuration
deriving DecidableEq

/-- Column name `f"Time In {i}"`. -/
def mkIn (i : Nat) : String := "Time In " ++ natToString i

/-- Column name `f"Time Out {i}"`. -/
def mkOut (i : Nat) : String := "Time Out " ++ natToString i

/-- Column name `f"Stay Duration {i}"`. -/
def mkStay (i : Nat) : String := "Stay Duration " ++ natToString i

/-- Drop the word `p` from the front of `cs`; `none` if `cs` does not start with `p`. -/
def dropLead : List Char → List Char → Option (List Char)
  | [], cs => some cs
  | _ :: _, [] => none
  | p :: ps, c :: cs => if p = c then dropLead ps cs else none

/-- Read the captured `(\d+)` group: the maximal digit run at the front (must be
nonempty), converted with Python `int`. -/
def grabNum (k : Kind) (rest : List Char) : Option (Kind × Nat) :=
  let ds := rest.takeWhile (fun c => c.isDigit)
  if ds.isEmpty then none else some (k, digitsToNat ds)

/-- Model of `re.match(r"(Time In|Time Out|Stay Duration) (\d+)", col)`:
prefix-match one of the three kind words followed by a space and at least
one digit; return the kind and the numeric value of the digit run. -/
def parseKindNum (cs : List Char) : Option (Kind × Nat) :=
  match dropLead "Time In ".data cs with
  | some rest => grabNum Kind.timeIn rest
  | none =>
    match dropLead "Time Out ".data cs with
    | some rest => grabNum Kind.timeOut rest
    | none =>
      match dropLead "Stay Duration ".data cs with
      | some rest => grabNum Kind.stayDuration rest
      | none => none

theorem dropLead_append (p r : List Char) : dropLead p (p ++ r) = some r := by
  induction p with
  | nil => rfl
  | cons c cs ih => simp [dropLead, ih]

theorem takeWhile_digits_natChars (n : Nat) :
    (natChars n).takeWhile (fun c => c.isDigit) = natChars n :=
  List.takeWhile_eq_self_iff.mpr (natChars_all_digit n)

theorem grabNum_natChars (k : Kind) (n : Nat) :
    grabNum k (natChars n) = some (k, n) := by
  simp only [grabNum, takeWhile_digits_natChars,
    List.isEmpty_iff]
  rw [if_neg (natChars_ne_nil n), digitsToNat_natChars]

theorem mkIn_data (i : Nat) : (mkIn i).data = "Time In ".data ++ natChars i := rfl

theorem mkOut_data (i : Nat) : (mkOut i).data = "Time Out ".data ++ natChars i := rfl

theorem mkStay_data (i : Nat) : (mkStay i).data = "Stay Duration ".data ++ natChars i := rfl

theorem dropLead_timeIn_of_timeOut (r : List Char) :
    dropLead "Time In ".data ("Time Out ".data ++ r) = none := rfl

theorem dropLead_timeIn_of_stay (r : List Char) :
    dropLead "Time In ".data ("Stay Duration ".data ++ r) = none := rfl

theorem dropLead_timeOut_of_stay (r : List Char) :
    dropLead "Time Out ".data ("Stay Duration ".data ++ r) = none := rfl

theorem parseKindNum_mkIn (i : Nat) :
    parseKindNum (mkIn i).data = some (Kind.timeIn, i) := by
  rw [mkIn_data]
  unfold parseKindNum
  rw [dropLead_append]
  exact grabNum_natChars _ _

theorem parseKindNum_mkOut (i : Nat) :
    parseKindNum (mkOut i).data = some (Kind.timeOut, i) := by
  rw [mkOut_data]
  unfold parseKindNum
  rw [dropLead_timeIn_of_timeOut, dropLead_append]
  exact grabNum_natChars _ _

theorem parseKindNum_mkStay (i : Nat) :
    parseKindNum (mkStay i).data = some (Kind.stayDuration, i) := by
  rw [mkStay_data]
  unfold parseKindNum
  rw [dropLead_timeIn_of_stay, dropLead_timeOut_of_stay, dropLead_append]
  exact grabNum_natChars _ _

/-- Canonical rendering of a synthesized punch column. -/
def renderCol : Kind → Nat → String
  | Kind.timeIn, i => mkIn i
  | Kind.timeOut, i => mkOut i
  | Kind.stayDuration, i => mkStay i

theorem parseKindNum_renderCol (k : Kind) (i : Nat) :
    parseKindNum (renderCol k i).data = some (k, i) := by
  cases k
  · exact parseKindNum_mkIn i
  · exact parseKindNum_mkOut i
  · exact parseKindNum_mkStay i

theorem renderCol_inj {k k' : Kind} {i i' : Nat}
    (h : renderCol k i = renderCol k' i') : k = k' ∧ i = i' := by
  have h1 := parseKindNum_renderCol k i
  rw [h, parseKindNum_renderCol] at h1
  simp only [Option.some.injEq, Prod.mk.injEq] at h1
  exact ⟨h1.1.symm, h1.2.symm⟩

/-! ### Punch extraction (`extract_multiple_in_out`, src/Home.py lines 110-126)

The source runs `re.findall(r'(\d{1,2}:\d{2}:\d{2})\((in|out)\)', punch_record.lower())`
and then walks the matches keeping two independent 1-based counters.
`re.findall` scans the string left to right, emitting leftmost
non-overlapping matches; the `\d{1,2}` hour is greedy (two digits tried
before one). -/

/-- Python `str.lower()` (ASCII): lowercase each character. -/
def lowerStr (s : String) : String := ⟨s.data.map Char.toLower⟩

/-- Tag of a punch token: `(in)` or `(out)`. -/
inductive Tag
  | tin
  | tout
deriving DecidableEq

/-- Match `:\d{2}:\d{2}` at the front; return the six matched characters and the rest. -/
def readMMSS : List Char → Option (List Char × List Char)
  | c1 :: m1 :: m2 :: c2 :: s1 :: s2 :: rest =>
    if c1 = ':' ∧ m1.isDigit ∧ m2.isDigit ∧ c2 = ':' ∧ s1.isDigit ∧ s2.isDigit then
      some ([c1, m1, m2, c2, s1, s2], rest)
    else none
  | _ => none

/-- Match the literal `(in)` or `(out)` at the front (input is already lowercased). -/
def readTag : List Char → Option (Tag × List Char)
  | '(' :: 'i' :: 'n' :: ')' :: rest => some (Tag.tin, rest)
  | '(' :: 'o' :: 'u' :: 't' :: ')' :: rest => some (Tag.tout, rest)
  | _ => none

/-- Attempt of the whole pattern with a two-digit hour. -/
def matchLen2 : List Char → Option (List Char × Tag × List Char)
  | d1 :: d2 :: rest =>
    if d1.isDigit ∧ d2.isDigit then
      match readMMSS rest with
      | some (mmss, r2) =>
        match readTag r2 with
        | some (tg, r3) => some (d1 :: d2 :: mmss, tg, r3)
        | none => none
      | none => none
    else none
  | _ => none

/-- Attempt of the whole pattern with a one-digit hour. -/
def matchLen1 : List Char → Option (List Char × Tag × List Char)
  | d1 :: rest =>
    if d1.isDigit then
      match readMMSS rest with
      | some (mmss, r2) =>
        match readTag r2 with
        | some (tg, r3) => some (d1 :: mmss, tg, r3)
        | none => none
      | none => none
    else none
  | _ => none

/-- Match `(\d{1,2}:\d{2}:\d{2})\((in|out)\)` at the current position; the greedy
`\d{1,2}` tries two digits before backtracking to one. -/
def matchAt (cs : List Char) : Option (List Char × Tag × List Char) :=
  match matchLen2 cs with
  | some r => some r
  | none => matchLen1 cs

/-- Fuel-driven scan: at each position try a match; on success continue after
it, otherwise advance one character (the semantics of `re.findall`). -/
def findAllAux : Nat → List Char → List (List Char × Tag)
  | 0, _ => []
  | _ + 1, [] => []
  | fuel + 1, c :: cs =>
    match matchAt (c :: cs) with
    | some (t, tg, rest) => (t, tg) :: findAllAux fuel rest
    | none => findAllAux fuel cs

/-- All matches of the punch-token pattern, in left-to-right textual order. -/
def findAll (cs : List Char) : List (List Char × Tag) := findAllAux cs.length cs

/-- Walk the matches keeping two independent 1-based counters (`in_count`,
`out_count`), turning each into a dict entry (Python dicts preserve insertion
order, and all keys produced here are fresh, so an ordered association list
models the dict exactly). -/
def buildPunchDict : List (List Char × Tag) → Nat → Nat → List (String × String)
  | [], _, _ => []
  | (t, Tag.tin) :: es, ic, oc => (mkIn ic, ⟨t⟩) :: buildPunchDict es (ic + 1) oc
  | (t, Tag.tout) :: es, ic, oc => (mkOut oc, ⟨t⟩) :: buildPunchDict es ic (oc + 1)

/-- `extract_multiple_in_out` (src/Home.py lines 110-126): `none` models the
`pd.isna` branch returning `{}`. -/
def extract_multiple_in_out (punch_record : Option String) : List (String × String) :=
  match punch_record with
  | none => []
  | some s => buildPunchDict (findAll (lowerStr s).data) 1 1

/-! ### Stay-duration calculation (`calculate_stay_durations`, lines 133-153) -/

/-- Maximal digit run at the front of `cs`, valued by Python `int`, accepted
only when it is one or two digits long (the `%H`/`%M`/`%S` strptime fields). -/
def readField (cs : List Char) : Option (Nat × List Char) :=
  let ds := cs.takeWhile (fun c => c.isDigit)
  if ds.length = 1 ∨ ds.length = 2 then
    some (digitsToNat ds, cs.dropWhile (fun c => c.isDigit))
  else none

/-- Model of `pd.to_datetime(s, format="%H:%M:%S")`, as seconds since midnight:
one-or-two-digit fields separated by `:`, hour at most 23, minute and second at
most 59, and the whole string must be consumed.  Any failure (shape or range)
is an exception in the source, caught by the bare `except`; here it is `none`. -/
def timeSecs? (s : String) : Option Nat :=
  match readField s.data with
  | some (h, ':' :: r1) =>
    if h ≤ 23 then
      match readField r1 with
      | some (m, ':' :: r2) =>
        if m ≤ 59 then
          match readField r2 with
          | some (sec, []) => if sec ≤ 59 then some (3600 * h + 60 * m + sec) else none
          | _ => none
        else none
      | _ => none
    else none
  | _ => none

/-- Python `f"{n:02}"`: zero-pad to total width 2, the sign counting toward
the width. -/
def pad2 (n : Int) : String :=
  if n < 0 then "-" ++ natToString n.natAbs
  else if n < 10 then "0" ++ natToString n.natAbs
  else natToString n.natAbs

/-- The duration formatting of the source: `total_minutes = diff.total_seconds() / 60`,
`hours = int(total_minutes // 60)`, `minutes = int(total_minutes % 60)`,
`f"{hours:02}:{minutes:02}"`.  With `diff` in whole seconds this is floor
division and the nonnegative remainder. -/
def fmtDur (diffSecs : Int) : String :=
  pad2 (Int.fdiv diffSecs 3600) ++ ":" ++ pad2 (Int.fdiv (Int.emod diffSecs 3600) 60)

/-- The body of one loop iteration of `calculate_stay_durations`: look up the
two cells (a row is an association list from column name to cell, `none` being
NaN), require both non-NaN (`pd.notna`), parse both, subtract and format; any
parse failure yields `""`. -/
def durFor (row : List (String × Option String)) (i : Nat) : String :=
  match List.lookup (mkIn i) row, List.lookup (mkOut i) row with
  | some (some tIn), some (some tOut) =>
    match timeSecs? tIn, timeSecs? tOut with
    | some x, some y => fmtDur ((y : Int) - (x : Int))
    | _, _ => ""
  | _, _ => ""

/-- The `while f"Time In {i}" in row and f"Time Out {i}" in row` loop, starting
at `i = 1`.  The fuel only bounds the iteration count; `row.length + 1`
iterations always suffice because each iteration requires two fresh column
names to be present in `row`. -/
def calcLoop (row : List (String × Option String)) : Nat → Nat → List (String × String)
  | 0, _ => []
  | fuel + 1, i =>
    if (List.lookup (mkIn i) row).isSome && (List.lookup (mkOut i) row).isSome then
      (mkStay i, durFor row i) :: calcLoop row fuel (i + 1)
    else []

/-- `calculate_stay_durations` (src/Home.py lines 133-153). -/
def calculate_stay_durations (row : List (String × Option String)) : List (String × String) :=
  calcLoop row (row.length + 1) 1

/-! ### Header-row detection (`find_header_row`, lines 45-50) and the pipeline -/

/-- Python `astype(str)` on a cell: a NaN cell prints as `"nan"`. -/
def cellStr : Option String → String
  | some s => s
  | none => "nan"

/-- Substring test (Python `needle in hay`). -/
def hasSub (needle : List Char) : List Char → Bool
  | [] => needle.isEmpty
  | c :: cs => needle.isPrefixOf (c :: cs) || hasSub needle cs

/-- One row of the scan: stringify every cell, lowercase, and test for the
substring `"punch records"`. -/
def rowHasPunch (row : List (Option String)) : Bool :=
  row.any (fun c => hasSub "punch records".data (lowerStr (cellStr c)).data)

/-- The `for i in range(min(10, len(df)))` scan, carrying the current index. -/
def findHeaderAux : List (List (Option String)) → Nat → Nat → Option Nat
  | _, 0, _ => none
  | [], _ + 1, _ => none
  | r :: rs, lim + 1, i => if rowHasPunch r then some i else findHeaderAux rs lim (i + 1)

/-- `find_header_row` (src/Home.py lines 45-50). -/
def find_header_row (df : List (List (Option String))) : Option Nat :=
  findHeaderAux df (min 10 df.length) 0

/-- The file-scoped error kinds of the processing `try` block. -/
inductive ProcError
  | missingHeader
  | missingColumn
deriving DecidableEq

/-- A table after header promotion: column names (NaN names possible) and
rows of cells, aligned positionally with the names. -/
structure CleanTable where
  names : List (Option String)
  rows : List (List (Option String))
deriving DecidableEq

/-- Keep only the columns whose name satisfies `p`. -/
def filterCols (p : Option String → Bool) (t : CleanTable) : CleanTable where
  names := t.names.filter p
  rows := t.rows.map (fun r => ((t.names.zip r).filter (fun x => p x.1)).map (fun x => x.2))

/-- `df_clean.iloc[0].str.strip()`: strip each name; NaN names stay NaN. -/
def promoteNames (header : List (Option String)) : List (Option String) :=
  header.map (fun c => c.map String.trim)

/-- Header promotion and column pruning (src/Home.py lines 88-107): find the
header row (else `missingHeader`), slice from it, promote and strip the first
row to column names, drop `S.No` columns and NaN-named columns, and require a
`Punch Records` column (else `missingColumn`). -/
def processTable (df : List (List (Option String))) : Except ProcError CleanTable :=
  match find_header_row df with
  | none => Except.error ProcError.missingHeader
  | some idx =>
    let sliced := df.drop idx
    let names := promoteNames (sliced.headD [])
    let body := sliced.drop 1
    let pruned := filterCols (fun n => n.isSome)
      (filterCols (fun n => !(n == some "S.No")) { names := names, rows := body })
    if some "Punch Records" ∈ pruned.names then Except.ok pruned
    else Except.error ProcError.missingColumn

/-! ### Column reordering (src/Home.py lines 160-177) -/

/-- `fixed_cols`: the columns not matching
`re.match(r'Time (In|Out) \d+|Stay Duration \d+', col)`. -/
def fixed_cols (cols : List String) : List String :=
  cols.filter (fun c => (parseKindNum c.data).isNone)

/-- The `punches` dict: `punches[g]["Time In"]` etc.; a later matching column
overwrites an earlier one in the same slot, so the model keeps the last. -/
def punchSlot (cols : List String) (g : Nat) (k : Kind) : Option String :=
  (cols.filter (fun c => decide (parseKindNum c.data = some (k, g)))).getLast?

/-- All numeric group suffixes parsed from the columns (with repetitions). -/
def groupList (cols : List String) : List Nat :=
  cols.filterMap (fun c => (parseKindNum c.data).map (fun x => x.2))

/-- Largest group suffix (0 when there are none). -/
def maxGroup (cols : List String) : Nat := (groupList cols).foldr max 0

/-- `sorted(punches.keys())`: the distinct group suffixes in ascending order. -/
def sortedGroups (cols : List String) : List Nat :=
  (List.range (maxGroup cols + 1)).filter (fun g => decide (g ∈ groupList cols))

/-- `reordered_punch_cols`: for each group in ascending order, the matched
columns for Time In / Time Out / Stay Duration, with the synthesized name as
the dict-lookup default. -/
def reordered_punch_cols (cols : List String) : List String :=
  (sortedGroups cols).flatMap (fun i =>
    [(punchSlot cols i Kind.timeIn).getD (mkIn i),
     (punchSlot cols i Kind.timeOut).getD (mkOut i),
     (punchSlot cols i Kind.stayDuration).getD (mkStay i)])

/-- `final_cols = fixed_cols + reordered_punch_cols`. -/
def final_cols (cols : List String) : List String :=
  fixed_cols cols ++ reordered_punch_cols cols

/-- The selection list `[col for col in final_cols if col in df_clean.columns]`. -/
def selectedCols (cols : List String) : List String :=
  (final_cols cols).filter (fun c => decide (c ∈ cols))

/-- The output column sequence of `df_clean[selection]`: pandas label selection
fans out on duplicate labels — each label of the selection list returns every
column of the frame carrying that label, in the frame's positional order. -/
def reorderedCols (cols : List String) : List String :=
  (selectedCols cols).flatMap (fun c => cols.filter (fun d => decide (d = c)))

/-- Modelled from the claim text of the spec (section 4.6): emit the fixed
columns first in original order, then for each group index in ascending
numeric order the columns `Time In i`, `Time Out i`, `Stay Duration i` in that
order, skipping any of the three that does not exist in the table. -/
def specReorder (cols : List String) : List String :=
  fixed_cols cols ++ (sortedGroups cols).flatMap (fun i =>
    [mkIn i, mkOut i, mkStay i].filter (fun c => decide (c ∈ cols)))

/-! ### Column structure of the expanded table (lines 129-130)

`expanded_df = df_clean['Punch Records'].apply(extract_multiple_in_out).apply(pd.Series)`
has as columns the union of the per-row dict keys. -/

/-- The matches of one Punch Records cell. -/
def entriesOf (cell : Option String) : List (List Char × Tag) :=
  match cell with
  | none => []
  | some s => findAll (lowerStr s).data

/-- Count of matches with the given tag. -/
def countTag (tg : Tag) (es : List (List Char × Tag)) : Nat :=
  es.countP (fun e => decide (e.2 = tg))

/-- Number of `(in)`-tagged tokens of a cell. -/
def inCnt (cell : Option String) : Nat := countTag Tag.tin (entriesOf cell)

/-- Number of `(out)`-tagged tokens of a cell. -/
def outCnt (cell : Option String) : Nat := countTag Tag.tout (entriesOf cell)

/-- Keys produced by extraction for one cell. -/
def extractKeys (cell : Option String) : List String :=
  (extract_multiple_in_out cell).map Prod.fst

/-- The columns of `expanded_df`: the union (first-appearance order, no
duplicates) of the keys over all cells of the Punch Records column. -/
def expandedCols (cells : List (Option String)) : List String :=
  (cells.flatMap extractKeys).dedup

/-- Greatest per-row count of `(in)`-tagged tokens. -/
def maxIn (cells : List (Option String)) : Nat :=
  cells.foldr (fun c m => max (inCnt c) m) 0

/-- Greatest per-row count of `(out)`-tagged tokens. -/
def maxOut (cells : List (Option String)) : Nat :=
  cells.foldr (fun c m => max (outCnt c) m) 0

/-- Greatest per-row count of tagged tokens of either kind. -/
def maxTokens (cells : List (Option String)) : Nat :=
  cells.foldr (fun c m => max (inCnt c + outCnt c) m) 0

/-- Greatest per-row count of complete in/out token pairs. -/
def maxRowPairs (cells : List (Option String)) : Nat :=
  cells.foldr (fun c m => max (min (inCnt c) (outCnt c)) m) 0

/-- Is `c` exactly a synthesized `Time In i` name whose `Time Out i` partner
is among `cols`?  Used to count the complete column pairs. -/
def completeIn (cols : List String) (c : String) : Bool :=
  match parseKindNum c.data with
  | some (Kind.timeIn, i) => decide (c = mkIn i) && decide (mkOut i ∈ cols)
  | _ => false

/-- The number of `Time In i` / `Time Out i` column pairs present in a column
list: distinct `Time In i` columns whose `Time Out i` partner also exists. -/
def pairCount (cols : List String) : Nat :=
  (cols.dedup.filter (completeIn cols)).length

/-! ### Injectivity of the synthesized column names -/

theorem mkIn_inj {i j : Nat} (h : mkIn i = mkIn j) : i = j := by
  have h1 := parseKindNum_mkIn i
  rw [h, parseKindNum_mkIn] at h1
  simp only [Option.some.injEq, Prod.mk.injEq] at h1
  exact h1.2.symm

theorem mkOut_inj {i j : Nat} (h : mkOut i = mkOut j) : i = j := by
  have h1 := parseKindNum_mkOut i
  rw [h, parseKindNum_mkOut] at h1
  simp only [Option.some.injEq, Prod.mk.injEq] at h1
  exact h1.2.symm

theorem mkStay_inj {i j : Nat} (h : mkStay i = mkStay j) : i = j := by
  have h1 := parseKindNum_mkStay i
  rw [h, parseKindNum_mkStay] at h1
  simp only [Option.some.injEq, Prod.mk.injEq] at h1
  exact h1.2.symm

theorem mkIn_ne_mkOut (i j : Nat) : mkIn i ≠ mkOut j := by
  intro h
  have h1 := parseKindNum_mkIn i
  rw [h, parseKindNum_mkOut] at h1
  simp at h1

theorem mkIn_ne_mkStay (i j : Nat) : mkIn i ≠ mkStay j := by
  intro h
  have h1 := parseKindNum_mkIn i
  rw [h, parseKindNum_mkStay] at h1
  simp at h1

theorem mkOut_ne_mkStay (i j : Nat) : mkOut i ≠ mkStay j := by
  intro h
  have h1 := parseKindNum_mkOut i
  rw [h, parseKindNum_mkStay] at h1
  simp at h1

/-! ### Structure of the extraction dictionary -/

theorem countTag_nil (tg : Tag) : countTag tg [] = 0 := rfl

theorem countTag_cons_self (tg : Tag) (t : List Char) (es : List (List Char × Tag)) :
    countTag tg ((t, tg) :: es) = countTag tg es + 1 := by
  simp [countTag, List.countP_cons]

theorem countTag_cons_of_ne {tg tg' : Tag} (h : tg' ≠ tg) (t : List Char)
    (es : List (List Char × Tag)) :
    countTag tg ((t, tg') :: es) = countTag tg es := by
  simp [countTag, List.countP_cons, h]

theorem buildPunchDict_length (es : List (List Char × Tag)) :
    ∀ ic oc, (buildPunchDict es ic oc).length = es.length := by
  induction es with
  | nil => intro ic oc; rfl
  | cons e es ih =>
    intro ic oc
    obtain ⟨t, tg⟩ := e
    cases tg
    · simp [buildPunchDict, ih]
    · simp [buildPunchDict, ih]

theorem buildPunchDict_get? (es : List (List Char × Tag)) :
    ∀ ic oc j, ∀ h : j < es.length,
      (buildPunchDict es ic oc).get? j =
        some (match (es.get ⟨j, h⟩).2 with
              | Tag.tin => mkIn (ic + countTag Tag.tin (es.take j))
              | Tag.tout => mkOut (oc + countTag Tag.tout (es.take j)),
              ⟨(es.get ⟨j, h⟩).1⟩) := by
  induction es with
  | nil => intro ic oc j h; simp at h
  | cons e es ih =>
    intro ic oc j h
    obtain ⟨t, tg⟩ := e
    cases j with
    | zero =>
      cases tg <;>
        simp [buildPunchDict, countTag_nil]
    | succ j =>
      have h' : j < es.length := by simpa using h
      cases tg with
      | tin =>
        show (buildPunchDict es (ic + 1) oc).get? j = _
        rw [ih (ic + 1) oc j h']
        have hcnt1 : countTag Tag.tin (((t, Tag.tin) :: es).take (j + 1)) =
            countTag Tag.tin (es.take j) + 1 := by
          rw [List.take_succ_cons, countTag_cons_self]
        have hcnt2 : countTag Tag.tout (((t, Tag.tin) :: es).take (j + 1)) =
            countTag Tag.tout (es.take j) := by
          rw [List.take_succ_cons, countTag_cons_of_ne (by decide)]
        rw [hcnt1, hcnt2]
        have hget : (((t, Tag.tin) :: es).get ⟨j + 1, h⟩) = es.get ⟨j, h'⟩ := rfl
        rw [hget]
        cases hg : (es.get ⟨j, h'⟩).2 with
        | tin =>
          simp only [hg, if_pos rfl, if_neg (by simp : ¬(Tag.tin = Tag.tout))]
          rw [show ic + (countTag Tag.tin (es.take j) + 1)
              = ic + 1 + countTag Tag.tin (es.take j) from by omega]
        | tout =>
          simp only [hg, if_neg (by simp : ¬(Tag.tin = Tag.tout))]
      | tout =>
        show (buildPunchDict es ic (oc + 1)).get? j = _
        rw [ih ic (oc + 1) j h']
        have hcnt1 : countTag Tag.tin (((t, Tag.tout) :: es).take (j + 1)) =
            countTag Tag.tin (es.take j) := by
          rw [List.take_succ_cons, countTag_cons_of_ne (by decide)]
        have hcnt2 : countTag Tag.tout (((t, Tag.tout) :: es).take (j + 1)) =
            countTag Tag.tout (es.take j) + 1 := by
          rw [List.take_succ_cons, countTag_cons_self]
        rw [hcnt1, hcnt2]
        have hget : (((t, Tag.tout) :: es).get ⟨j + 1, h⟩) = es.get ⟨j, h'⟩ := rfl
        rw [hget]
        cases hg : (es.get ⟨j, h'⟩).2 with
        | tin =>
          simp only [hg, if_neg (by simp : ¬(Tag.tout = Tag.tin))]
        | tout =>
          simp only [hg, if_pos rfl, if_neg (by simp : ¬(Tag.tout = Tag.tin))]
          rw [show oc + (countTag Tag.tout (es.take j) + 1)
              = oc + 1 + countTag Tag.tout (es.take j) from by omega]

theorem buildPunchDict_keys_mem (es : List (List Char × Tag)) :
    ∀ ic oc key, key ∈ (buildPunchDict es ic oc).map Prod.fst ↔
      (∃ d, d < countTag Tag.tin es ∧ key = mkIn (ic + d)) ∨
      (∃ d, d < countTag Tag.tout es ∧ key = mkOut (oc + d)) := by
  induction es with
  | nil =>
    intro ic oc key
    simp [buildPunchDict, countTag_nil]
  | cons e es ih =>
    intro ic oc key
    obtain ⟨t, tg⟩ := e
    cases tg with
    | tin =>
      rw [show buildPunchDict ((t, Tag.tin) :: es) ic oc
          = (mkIn ic, (⟨t⟩ : String)) :: buildPunchDict es (ic + 1) oc from rfl]
      rw [countTag_cons_self, countTag_cons_of_ne (by decide)]
      constructor
      · intro hm
        rcases List.mem_map.mp hm with ⟨p, hp, hkey⟩
        rcases List.mem_cons.mp hp with hp | hp
        · subst hp
          exact Or.inl ⟨0, by omega, by rw [← hkey, Nat.add_zero]⟩
        · have := (ih (ic + 1) oc key).mp (List.mem_map.mpr ⟨p, hp, hkey⟩)
          rcases this with ⟨d, hd, hk⟩ | ⟨d, hd, hk⟩
          · exact Or.inl ⟨d + 1, by omega, by rw [hk]; congr 1; omega⟩
          · exact Or.inr ⟨d, by omega, hk⟩
      · intro hm
        rcases hm with ⟨d, hd, hk⟩ | ⟨d, hd, hk⟩
        · cases d with
          | zero =>
            subst hk
            exact List.mem_map.mpr ⟨(mkIn (ic + 0), ⟨t⟩), List.mem_cons_self _ _, by
              simp⟩
          | succ d =>
            have : key ∈ (buildPunchDict es (ic + 1) oc).map Prod.fst :=
              (ih (ic + 1) oc key).mpr (Or.inl ⟨d, by omega, by rw [hk]; congr 1; omega⟩)
            rcases List.mem_map.mp this with ⟨p, hp, hkey⟩
            exact List.mem_map.mpr ⟨p, List.mem_cons_of_mem _ hp, hkey⟩
        · have : key ∈ (buildPunchDict es (ic + 1) oc).map Prod.fst :=
            (ih (ic + 1) oc key).mpr (Or.inr ⟨d, hd, hk⟩)
          rcases List.mem_map.mp this with ⟨p, hp, hkey⟩
          exact List.mem_map.mpr ⟨p, List.mem_cons_of_mem _ hp, hkey⟩
    | tout =>
      rw [show buildPunchDict ((t, Tag.tout) :: es) ic oc
          = (mkOut oc, (⟨t⟩ : String)) :: buildPunchDict es ic (oc + 1) from rfl]
      rw [countTag_cons_of_ne (by decide), countTag_cons_self]
      constructor
      · intro hm
        rcases List.mem_map.mp hm with ⟨p, hp, hkey⟩
        rcases List.mem_cons.mp hp with hp | hp
        · subst hp
          exact Or.inr ⟨0, by omega, by rw [← hkey, Nat.add_zero]⟩
        · have := (ih ic (oc + 1) key).mp (List.mem_map.mpr ⟨p, hp, hkey⟩)
          rcases this with ⟨d, hd, hk⟩ | ⟨d, hd, hk⟩
          · exact Or.inl ⟨d, by omega, hk⟩
          · exact Or.inr ⟨d + 1, by omega, by rw [hk]; congr 1; omega⟩
      · intro hm
        rcases hm with ⟨d, hd, hk⟩ | ⟨d, hd, hk⟩
        · have : key ∈ (buildPunchDict es ic (oc + 1)).map Prod.fst :=
            (ih ic (oc + 1) key).mpr (Or.inl ⟨d, hd, hk⟩)
          rcases List.mem_map.mp this with ⟨p, hp, hkey⟩
          exact List.mem_map.mpr ⟨p, List.mem_cons_of_mem _ hp, hkey⟩
        · cases d with
          | zero =>
            subst hk
            exact List.mem_map.mpr ⟨(mkOut (oc + 0), ⟨t⟩), List.mem_cons_self _ _, by
              simp⟩
          | succ d =>
            have : key ∈ (buildPunchDict es ic (oc + 1)).map Prod.fst :=
              (ih ic (oc + 1) key).mpr (Or.inr ⟨d, by omega, by rw [hk]; congr 1; omega⟩)
            rcases List.mem_map.mp this with ⟨p, hp, hkey⟩
            exact List.mem_map.mpr ⟨p, List.mem_cons_of_mem _ hp, hkey⟩

theorem extract_eq_buildPunchDict (cell : Option String) :
    extract_multiple_in_out cell = buildPunchDict (entriesOf cell) 1 1 := by
  cases cell <;> rfl

theorem mem_extractKeys (cell : Option String) (key : String) :
    key ∈ extractKeys cell ↔
      (∃ i, 1 ≤ i ∧ i ≤ inCnt cell ∧ key = mkIn i) ∨
      (∃ i, 1 ≤ i ∧ i ≤ outCnt cell ∧ key = mkOut i) := by
  unfold extractKeys
  rw [extract_eq_buildPunchDict, buildPunchDict_keys_mem]
  unfold inCnt outCnt
  constructor
  · rintro (⟨d, hd, hk⟩ | ⟨d, hd, hk⟩)
    · exact Or.inl ⟨1 + d, by omega, by omega, hk⟩
    · exact Or.inr ⟨1 + d, by omega, by omega, hk⟩
  · rintro (⟨i, h1, h2, hk⟩ | ⟨i, h1, h2, hk⟩)
    · exact Or.inl ⟨i - 1, by omega, by rw [hk]; congr 1; omega⟩
    · exact Or.inr ⟨i - 1, by omega, by rw [hk]; congr 1; omega⟩

theorem le_foldrMax_iff {α : Type} (f : α → Nat) (l : List α) (i : Nat) (hi : 1 ≤ i) :
    i ≤ l.foldr (fun c m => max (f c) m) 0 ↔ ∃ c ∈ l, i ≤ f c := by
  induction l with
  | nil =>
    simp only [List.foldr_nil, List.not_mem_nil, false_and, exists_false, iff_false]
    omega
  | cons a l ih =>
    rw [List.foldr_cons, le_max_iff, ih]
    constructor
    · rintro (h | ⟨c, hc, hfc⟩)
      · exact ⟨a, List.mem_cons_self a l, h⟩
      · exact ⟨c, List.mem_cons_of_mem _ hc, hfc⟩
    · rintro ⟨c, hc, hfc⟩
      rcases List.mem_cons.mp hc with rfl | hc
      · exact Or.inl hfc
      · exact Or.inr ⟨c, hc, hfc⟩

theorem mem_expandedCols (cells : List (Option String)) (x : String) :
    x ∈ expandedCols cells ↔
      (∃ i, 1 ≤ i ∧ i ≤ maxIn cells ∧ x = mkIn i) ∨
      (∃ i, 1 ≤ i ∧ i ≤ maxOut cells ∧ x = mkOut i) := by
  unfold expandedCols
  rw [List.mem_dedup, List.mem_flatMap]
  constructor
  · rintro ⟨c, hc, hk⟩
    rcases (mem_extractKeys c x).mp hk with ⟨j, h1, h2, hk'⟩ | ⟨j, h1, h2, hk'⟩
    · exact Or.inl ⟨j, h1, (le_foldrMax_iff inCnt cells j h1).mpr ⟨c, hc, h2⟩, hk'⟩
    · exact Or.inr ⟨j, h1, (le_foldrMax_iff outCnt cells j h1).mpr ⟨c, hc, h2⟩, hk'⟩
  · rintro (⟨j, h1, h2, rfl⟩ | ⟨j, h1, h2, rfl⟩)
    · obtain ⟨c, hc, hic⟩ := (le_foldrMax_iff inCnt cells j h1).mp h2
      exact ⟨c, hc, (mem_extractKeys c _).mpr (Or.inl ⟨j, h1, hic, rfl⟩)⟩
    · obtain ⟨c, hc, hic⟩ := (le_foldrMax_iff outCnt cells j h1).mp h2
      exact ⟨c, hc, (mem_extractKeys c _).mpr (Or.inr ⟨j, h1, hic, rfl⟩)⟩

/-- The canonical column list with the same membership as `expandedCols`. -/
def canonCols (cells : List (Option String)) : List String :=
  ((List.range' 1 (maxIn cells)).map mkIn) ++ ((List.range' 1 (maxOut cells)).map mkOut)

theorem mem_canonCols (cells : List (Option String)) (x : String) :
    x ∈ canonCols cells ↔
      (∃ i, 1 ≤ i ∧ i ≤ maxIn cells ∧ x = mkIn i) ∨
      (∃ i, 1 ≤ i ∧ i ≤ maxOut cells ∧ x = mkOut i) := by
  unfold canonCols
  rw [List.mem_append, List.mem_map, List.mem_map]
  constructor
  · rintro (⟨i, hi, rfl⟩ | ⟨i, hi, rfl⟩)
    · rw [List.mem_range'_1] at hi
      exact Or.inl ⟨i, by omega, by omega, rfl⟩
    · rw [List.mem_range'_1] at hi
      exact Or.inr ⟨i, by omega, by omega, rfl⟩
  · rintro (⟨i, h1, h2, rfl⟩ | ⟨i, h1, h2, rfl⟩)
    · exact Or.inl ⟨i, List.mem_range'_1.mpr ⟨h1, by omega⟩, rfl⟩
    · exact Or.inr ⟨i, List.mem_range'_1.mpr ⟨h1, by omega⟩, rfl⟩

theorem canonCols_nodup (cells : List (Option String)) : (canonCols cells).Nodup := by
  refine List.Nodup.append ?_ ?_ ?_
  · exact (List.nodup_range' 1 (maxIn cells)).map (fun a b h => mkIn_inj h)
  · exact (List.nodup_range' 1 (maxOut cells)).map (fun a b h => mkOut_inj h)
  · intro x hx1 hx2
    rcases List.mem_map.mp hx1 with ⟨i, _, rfl⟩
    rcases List.mem_map.mp hx2 with ⟨j, _, hj⟩
    exact mkIn_ne_mkOut i j hj.symm

theorem expandedCols_perm_canonCols (cells : List (Option String)) :
    (expandedCols cells).Perm (canonCols cells) :=
  List.perm_of_nodup_nodup_toFinset_eq (List.nodup_dedup _) (canonCols_nodup cells)
    (by
      ext x
      simp only [List.mem_toFinset]
      rw [mem_expandedCols, mem_canonCols])

theorem completeIn_mkOut (cols : List String) (i : Nat) :
    completeIn cols (mkOut i) = false := by
  unfold completeIn
  rw [parseKindNum_mkOut]

theorem completeIn_mkIn (cols : List String) (i : Nat) :
    completeIn cols (mkIn i) = decide (mkOut i ∈ cols) := by
  unfold completeIn
  rw [parseKindNum_mkIn]
  simp

theorem countP_le_range' (n m : Nat) :
    List.countP (fun i => decide (i ≤ m)) (List.range' 1 n) = min n m := by
  induction n with
  | zero => simp
  | succ n ih =>
    rw [List.range'_1_concat, List.countP_append, ih, List.countP_singleton]
    by_cases h : 1 + n ≤ m
    · rw [if_pos (by simpa using h)]
      omega
    · rw [if_neg (by simpa using h)]
      omega

theorem pairCount_expandedCols (cells : List (Option String)) :
    pairCount (expandedCols cells) = min (maxIn cells) (maxOut cells) := by
  have hperm := expandedCols_perm_canonCols cells
  have hnodup : (expandedCols cells).Nodup := List.nodup_dedup _
  unfold pairCount
  rw [List.dedup_eq_self.mpr hnodup, ← List.countP_eq_length_filter,
    hperm.countP_eq]
  have hstep : List.countP (completeIn (expandedCols cells)) (canonCols cells)
      = List.countP (completeIn (canonCols cells)) (canonCols cells) := by
    apply List.countP_congr
    intro x hx
    rcases (mem_canonCols cells x).mp hx with ⟨i, _, _, rfl⟩ | ⟨i, _, _, rfl⟩
    · rw [completeIn_mkIn, completeIn_mkIn]
      have : (mkOut i ∈ expandedCols cells) ↔ (mkOut i ∈ canonCols cells) := hperm.mem_iff
      constructor <;> intro h <;> simp only [decide_eq_true_eq] at h ⊢
      · exact this.mp h
      · exact this.mpr h
    · rw [completeIn_mkOut, completeIn_mkOut]
  rw [hstep]
  nth_rewrite 2 [show canonCols cells
      = ((List.range' 1 (maxIn cells)).map mkIn) ++ ((List.range' 1 (maxOut cells)).map mkOut)
      from rfl]
  rw [List.countP_append]
  have hout : List.countP (completeIn (canonCols cells))
      ((List.range' 1 (maxOut cells)).map mkOut) = 0 := by
    rw [List.countP_eq_zero]
    intro a ha
    rcases List.mem_map.mp ha with ⟨j, _, rfl⟩
    rw [completeIn_mkOut]
    simp
  rw [hout, Nat.add_zero, List.countP_map]
  have hin : List.countP (completeIn (canonCols cells) ∘ mkIn) (List.range' 1 (maxIn cells))
      = List.countP (fun i => decide (i ≤ maxOut cells)) (List.range' 1 (maxIn cells)) := by
    apply List.countP_congr
    intro i hi
    rw [List.mem_range'_1] at hi
    show (completeIn (canonCols cells) (mkIn i) = true) ↔ _
    rw [completeIn_mkIn]
    constructor <;> intro h <;> simp only [decide_eq_true_eq] at h ⊢
    · rcases (mem_canonCols cells (mkOut i)).mp h with ⟨j, _, _, hj⟩ | ⟨j, _, h2, hj⟩
      · exact absurd hj.symm (mkIn_ne_mkOut j i)
      · rw [mkOut_inj hj]
        exact h2
    · exact (mem_canonCols cells (mkOut i)).mpr (Or.inr ⟨i, by omega, h, rfl⟩)
  rw [hin, countP_le_range']

/-! ### Structure of the stay-duration loop -/

/-- The parsed value of a cell: `some` only when the column is present, the
cell is non-NaN, and the text parses as `%H:%M:%S`. -/
def cellSecs (row : List (String × Option String)) (key : String) : Option Nat :=
  match List.lookup key row with
  | some (some a) => timeSecs? a
  | _ => none

theorem durFor_blank_of_none (row : List (String × Option String)) (i : Nat)
    (h : cellSecs row (mkIn i) = none ∨ cellSecs row (mkOut i) = none) :
    durFor row i = "" := by
  unfold durFor
  unfold cellSecs at h
  cases h1 : List.lookup (mkIn i) row with
  | none => rfl
  | some v1 =>
    cases h2 : List.lookup (mkOut i) row with
    | none =>
      cases v1 with
      | none => rfl
      | some a => rfl
    | some v2 =>
      cases v1 with
      | none => rfl
      | some a =>
        cases v2 with
        | none => rfl
        | some b =>
          rw [h1, h2] at h
          have hred : timeSecs? a = none ∨ timeSecs? b = none := h
          show (match timeSecs? a, timeSecs? b with
                | some x, some y => fmtDur ((y : Int) - (x : Int))
                | _, _ => "") = ""
          rcases hred with h | h
          · rw [h]
          · rw [h]
            cases timeSecs? a <;> rfl

theorem calcLoop_mem (row : List (String × Option String)) :
    ∀ fuel i k v, (k, v) ∈ calcLoop row fuel i →
      ∃ j, i ≤ j ∧ k = mkStay j ∧ v = durFor row j := by
  intro fuel
  induction fuel with
  | zero => intro i k v h; simp [calcLoop] at h
  | succ fuel ih =>
    intro i k v h
    simp only [calcLoop] at h
    by_cases hc : ((List.lookup (mkIn i) row).isSome
        && (List.lookup (mkOut i) row).isSome) = true
    · rw [if_pos hc] at h
      rcases List.mem_cons.mp h with h | h
      · rw [Prod.mk.injEq] at h
        exact ⟨i, Nat.le_refl i, h.1, h.2⟩
      · obtain ⟨j, hj, hk, hv⟩ := ih (i + 1) k v h
        exact ⟨j, by omega, hk, hv⟩
    · rw [if_neg hc] at h
      simp at h

/-! ### Structure of the header scan -/

theorem findHeaderAux_some_iff :
    ∀ (rows : List (List (Option String))) (lim start i : Nat),
      findHeaderAux rows lim start = some i ↔
        ∃ k, k < lim ∧ i = start + k ∧
          (∃ r, rows[k]? = some r ∧ rowHasPunch r = true) ∧
          (∀ j r', j < k → rows[j]? = some r' → rowHasPunch r' = false) := by
  intro rows
  induction rows with
  | nil =>
    intro lim start i
    constructor
    · intro h
      cases lim <;> simp [findHeaderAux] at h
    · rintro ⟨k, _, _, ⟨r, hr, _⟩, _⟩
      simp at hr
  | cons r rs ih =>
    intro lim start i
    cases lim with
    | zero =>
      constructor
      · intro h
        simp [findHeaderAux] at h
      · rintro ⟨k, hk, _⟩
        omega
    | succ lim =>
      show (if rowHasPunch r then some start else findHeaderAux rs lim (start + 1))
          = some i ↔ _
      by_cases hp : rowHasPunch r
      · rw [if_pos hp]
        constructor
        · intro h
          injection h with h
          exact ⟨0, by omega, by omega, ⟨r, by simp, hp⟩, by intro j r' hj; omega⟩
        · rintro ⟨k, hk, hik, ⟨r', hr', hpr'⟩, hmin⟩
          cases k with
          | zero => simp [hik]
          | succ k =>
            have hz := hmin 0 r (by omega) (by simp)
            rw [hp] at hz
            cases hz
      · rw [if_neg hp]
        rw [Bool.not_eq_true] at hp
        rw [ih lim (start + 1) i]
        constructor
        · rintro ⟨k, hk, hik, ⟨r', hr', hpr'⟩, hmin⟩
          refine ⟨k + 1, by omega, by omega, ⟨r', by simpa using hr', hpr'⟩, ?_⟩
          intro j rj hj hrj
          cases j with
          | zero =>
            have hrr : r = rj := by simpa using hrj
            rw [← hrr]
            exact hp
          | succ j =>
            exact hmin j rj (by omega) (by simpa using hrj)
        · rintro ⟨k, hk, hik, ⟨r', hr', hpr'⟩, hmin⟩
          cases k with
          | zero =>
            have hrr : r = r' := by simpa using hr'
            rw [← hrr] at hpr'
            rw [hp] at hpr'
            cases hpr'
          | succ k =>
            refine ⟨k, by omega, by omega, ⟨r', by simpa using hr', hpr'⟩, ?_⟩
            intro j rj hj hrj
            exact hmin (j + 1) rj (by omega) (by simpa using hrj)

theorem find_header_row_some_iff (df : List (List (Option String))) (i : Nat) :
    find_header_row df = some i ↔
      i < min 10 df.length ∧ (∃ r, df[i]? = some r ∧ rowHasPunch r = true) ∧
        ∀ j r', j < i → df[j]? = some r' → rowHasPunch r' = false := by
  unfold find_header_row
  rw [findHeaderAux_some_iff]
  constructor
  · rintro ⟨k, hk, hik, hr, hmin⟩
    have hik' : i = k := by omega
    subst hik'
    exact ⟨hk, hr, hmin⟩
  · rintro ⟨h1, h2, h3⟩
    exact ⟨i, h1, by omega, h2, h3⟩

theorem findHeaderAux_zero (rows : List (List (Option String))) (start : Nat) :
    findHeaderAux rows 0 start = none := by
  cases rows <;> rfl

theorem findHeaderAux_take :
    ∀ (rows : List (List (Option String))) (n lim start : Nat), lim ≤ n →
      findHeaderAux (rows.take n) lim start = findHeaderAux rows lim start := by
  intro rows
  induction rows with
  | nil => intro n lim start _; rw [List.take_nil]
  | cons r rs ih =>
    intro n lim start h
    cases lim with
    | zero => rw [findHeaderAux_zero, findHeaderAux_zero]
    | succ lim =>
      cases n with
      | zero => omega
      | succ n =>
        rw [List.take_succ_cons]
        show (if rowHasPunch r then some start else findHeaderAux (rs.take n) lim (start + 1))
          = _
        rw [ih n lim (start + 1) (by omega)]
        rfl

theorem find_header_row_take10 (df : List (List (Option String))) :
    find_header_row df = find_header_row (df.take 10) := by
  unfold find_header_row
  have hlen : min 10 (df.take 10).length = min 10 df.length := by
    rw [List.length_take]
    omega
  rw [hlen, findHeaderAux_take df 10 (min 10 df.length) 0 (by omega)]

/-! ### Structure of the column reordering -/

/-- Do all punch-matching column names have exactly the synthesized form
`Time In i` / `Time Out i` / `Stay Duration i` (kind word, one space, the
decimal rendering of `i` and nothing after it)? -/
def synthOnly (cols : List String) : Bool :=
  cols.all (fun c =>
    match parseKindNum c.data with
    | some (k, i) => decide (c = renderCol k i)
    | none => true)

theorem synthOnly_spec {cols : List String} (h : synthOnly cols = true) :
    ∀ c ∈ cols, ∀ k i, parseKindNum c.data = some (k, i) → c = renderCol k i := by
  intro c hc k i hp
  have hall := List.all_eq_true.mp h c hc
  rw [hp] at hall
  simpa using hall

theorem punchSlot_some {cols : List String} {g : Nat} {k : Kind} {c : String}
    (h : punchSlot cols g k = some c) :
    c ∈ cols ∧ parseKindNum c.data = some (k, g) := by
  unfold punchSlot at h
  have hmem := List.mem_of_getLast?_eq_some h
  rw [List.mem_filter] at hmem
  exact ⟨hmem.1, by simpa using hmem.2⟩

theorem punchSlot_none {cols : List String} {g : Nat} {k : Kind}
    (h : punchSlot cols g k = none) :
    ∀ c ∈ cols, parseKindNum c.data ≠ some (k, g) := by
  unfold punchSlot at h
  rw [List.getLast?_eq_none_iff] at h
  intro c hc hp
  have hin : c ∈ cols.filter (fun c => decide (parseKindNum c.data = some (k, g))) :=
    List.mem_filter.mpr ⟨hc, by simpa using hp⟩
  rw [h] at hin
  simp at hin

theorem mem_groupList_iff (cols : List String) (g : Nat) :
    g ∈ groupList cols ↔ ∃ c ∈ cols, ∃ k, parseKindNum c.data = some (k, g) := by
  unfold groupList
  rw [List.mem_filterMap]
  constructor
  · rintro ⟨c, hc, hp⟩
    rw [Option.map_eq_some'] at hp
    obtain ⟨p, hp1, hp2⟩ := hp
    obtain ⟨k, i⟩ := p
    simp only at hp2
    subst hp2
    exact ⟨c, hc, k, hp1⟩
  · rintro ⟨c, hc, k, hp⟩
    exact ⟨c, hc, by rw [hp]; rfl⟩

theorem le_foldr_max (l : List Nat) : ∀ x ∈ l, x ≤ l.foldr max 0 := by
  induction l with
  | nil => simp
  | cons a l ih =>
    intro x hx
    rcases List.mem_cons.mp hx with rfl | hx
    · simp [le_max_iff]
    · have := ih x hx
      rw [List.foldr_cons, le_max_iff]
      omega

theorem mem_sortedGroups (cols : List String) (g : Nat) :
    g ∈ sortedGroups cols ↔ g ∈ groupList cols := by
  unfold sortedGroups
  rw [List.mem_filter]
  constructor
  · rintro ⟨_, h⟩
    simpa using h
  · intro h
    refine ⟨?_, by simpa using h⟩
    rw [List.mem_range]
    have := le_foldr_max (groupList cols) g h
    unfold maxGroup
    omega

theorem slotFilter (cols : List String) (hs : synthOnly cols = true) (i : Nat) (k : Kind) :
    [(punchSlot cols i k).getD (renderCol k i)].filter (fun c => decide (c ∈ cols))
      = [renderCol k i].filter (fun c => decide (c ∈ cols)) := by
  cases hslot : punchSlot cols i k with
  | none => rw [Option.getD_none]
  | some c =>
    rw [Option.getD_some]
    obtain ⟨hmem, hparse⟩ := punchSlot_some hslot
    rw [synthOnly_spec hs c hmem k i hparse]

/-- Under `synthOnly`, the selection list of the source coincides with the
fixed-then-synthesized-groups layout of the spec. -/
theorem selected_normal (cols : List String) (hs : synthOnly cols = true) :
    selectedCols cols = specReorder cols := by
  unfold selectedCols final_cols reordered_punch_cols specReorder
  rw [List.filter_append]
  congr 1
  · rw [List.filter_eq_self]
    intro c hc
    unfold fixed_cols at hc
    rw [List.mem_filter] at hc
    simpa using hc.1
  · rw [List.filter_flatMap]
    apply congrArg
    funext i
    show ([(punchSlot cols i Kind.timeIn).getD (mkIn i)]
        ++ ([(punchSlot cols i Kind.timeOut).getD (mkOut i)]
        ++ [(punchSlot cols i Kind.stayDuration).getD (mkStay i)])).filter
          (fun c => decide (c ∈ cols))
      = ([mkIn i] ++ ([mkOut i] ++ [mkStay i])).filter (fun c => decide (c ∈ cols))
    rw [List.filter_append, List.filter_append, List.filter_append, List.filter_append]
    rw [show mkIn i = renderCol Kind.timeIn i from rfl,
        show mkOut i = renderCol Kind.timeOut i from rfl,
        show mkStay i = renderCol Kind.stayDuration i from rfl]
    rw [slotFilter cols hs i Kind.timeIn, slotFilter cols hs i Kind.timeOut,
      slotFilter cols hs i Kind.stayDuration]

theorem flatMap_congr_mem {α β : Type} {l : List α} {f g : α → List β}
    (h : ∀ a ∈ l, f a = g a) : l.flatMap f = l.flatMap g := by
  induction l with
  | nil => rfl
  | cons a l ih =>
    rw [List.flatMap_cons, List.flatMap_cons, h a (List.mem_cons_self a l),
      ih (fun a ha => h a (List.mem_cons_of_mem _ ha))]

theorem filter_eq_singleton_of_nodup {cols : List String} {c : String}
    (hnd : cols.Nodup) (hc : c ∈ cols) :
    cols.filter (fun d => decide (d = c)) = [c] := by
  rw [show (fun d => decide (d = c)) = (fun d => d == c) from rfl, List.filter_beq,
    List.count_eq_one_of_mem hnd hc, List.replicate_one]

/-- With pairwise-distinct column labels the duplicate-label fan-out of the
selection degenerates: the output is the selection list itself. -/
theorem reorderedCols_eq_selectedCols (cols : List String) (hnd : cols.Nodup) :
    reorderedCols cols = selectedCols cols := by
  unfold reorderedCols
  rw [flatMap_congr_mem (g := fun c => [c]) ?_, List.flatMap_singleton']
  intro c hc
  have hcc : c ∈ cols := by
    unfold selectedCols at hc
    simpa using (List.mem_filter.mp hc).2
  exact filter_eq_singleton_of_nodup hnd hcc

/-- Under `synthOnly` and distinct labels, the reordering of the source
coincides with the fixed-then-synthesized-groups layout of the spec. -/
theorem reorder_normal (cols : List String) (hs : synthOnly cols = true)
    (hnd : cols.Nodup) : reorderedCols cols = specReorder cols :=
  (reorderedCols_eq_selectedCols cols hnd).trans (selected_normal cols hs)

theorem renderCol_mem_triple (k : Kind) (i : Nat) :
    renderCol k i ∈ [mkIn i, mkOut i, mkStay i] := by
  cases k <;> simp [renderCol]

theorem parseKindNum_of_mem_triple {x : String} {i : Nat}
    (h : x ∈ [mkIn i, mkOut i, mkStay i]) : ∃ k, parseKindNum x.data = some (k, i) := by
  rcases List.mem_cons.mp h with h | h
  · exact ⟨Kind.timeIn, by rw [h]; exact parseKindNum_mkIn i⟩
  rcases List.mem_cons.mp h with h | h
  · exact ⟨Kind.timeOut, by rw [h]; exact parseKindNum_mkOut i⟩
  have h := List.mem_singleton.mp h
  exact ⟨Kind.stayDuration, by rw [h]; exact parseKindNum_mkStay i⟩

theorem triple_nodup (i : Nat) : ([mkIn i, mkOut i, mkStay i]).Nodup := by
  refine List.nodup_cons.mpr ⟨?_, List.nodup_cons.mpr ⟨?_, List.nodup_singleton _⟩⟩
  · intro h
    rcases List.mem_cons.mp h with h | h
    · exact mkIn_ne_mkOut i i h
    · rcases List.mem_singleton.mp h with h
      exact mkIn_ne_mkStay i i h
  · intro h
    rcases List.mem_singleton.mp h with h
    exact mkOut_ne_mkStay i i h

theorem specReorder_nodup (cols : List String) (hnd : cols.Nodup) :
    (specReorder cols).Nodup := by
  unfold specReorder
  refine List.Nodup.append (hnd.filter _) ?_ ?_
  · rw [List.nodup_flatMap]
    constructor
    · intro i _
      exact (triple_nodup i).filter _
    · have hnd2 : (sortedGroups cols).Nodup := (List.nodup_range _).filter _
      refine hnd2.imp ?_
      intro i j hne x hxi hxj
      have hi := parseKindNum_of_mem_triple (List.mem_of_mem_filter hxi)
      have hj := parseKindNum_of_mem_triple (List.mem_of_mem_filter hxj)
      obtain ⟨ki, hki⟩ := hi
      obtain ⟨kj, hkj⟩ := hj
      rw [hki] at hkj
      simp only [Option.some.injEq, Prod.mk.injEq] at hkj
      exact hne hkj.2
  · intro x hx1 hx2
    unfold fixed_cols at hx1
    rw [List.mem_filter] at hx1
    rcases List.mem_flatMap.mp hx2 with ⟨i, _, hxi⟩
    obtain ⟨k, hk⟩ := parseKindNum_of_mem_triple (List.mem_of_mem_filter hxi)
    rw [hk] at hx1
    simp at hx1

theorem mem_specReorder (cols : List String) (hs : synthOnly cols = true) (x : String) :
    x ∈ specReorder cols ↔ x ∈ cols := by
  unfold specReorder
  rw [List.mem_append]
  constructor
  · rintro (hx | hx)
    · exact (List.mem_filter.mp hx).1
    · rcases List.mem_flatMap.mp hx with ⟨i, _, hxi⟩
      have := (List.mem_filter.mp hxi).2
      simpa using this
  · intro hx
    cases hp : parseKindNum x.data with
    | none =>
      refine Or.inl ?_
      unfold fixed_cols
      exact List.mem_filter.mpr ⟨hx, by simp [hp]⟩
    | some p =>
      obtain ⟨k, i⟩ := p
      have hxr := synthOnly_spec hs x hx k i hp
      refine Or.inr (List.mem_flatMap.mpr ⟨i, ?_, ?_⟩)
      · rw [mem_sortedGroups, mem_groupList_iff]
        exact ⟨x, hx, k, hp⟩
      · refine List.mem_filter.mpr ⟨?_, by simpa using hx⟩
        rw [hxr]
        exact renderCol_mem_triple k i

theorem reorderedCols_perm (cols : List String) (hs : synthOnly cols = true)
    (hnd : cols.Nodup) : (reorderedCols cols).Perm cols := by
  rw [reorder_normal cols hs hnd]
  refine List.Subperm.antisymm ?_ ?_
  · refine ((specReorder_nodup cols hnd).subperm ?_)
    intro x hx
    exact (mem_specReorder cols hs x).mp hx
  · refine (hnd.subperm ?_)
    intro x hx
    exact (mem_specReorder cols hs x).mpr hx

/-! ### The claims -/

/-- C1: for the input cell `"09:00:00(in)13:00:00(out)14:00:00(in)18:30:00(out)"`,
punch extraction yields exactly Time In 1 = 09:00:00, Time Out 1 = 13:00:00,
Time In 2 = 14:00:00, Time Out 2 = 18:30:00, and duration calculation on that
row yields Stay Duration 1 = "04:00" and Stay Duration 2 = "04:30". -/
theorem claim_C1 :
    extract_multiple_in_out (some "09:00:00(in)13:00:00(out)14:00:00(in)18:30:00(out)")
      = [("Time In 1", "09:00:00"), ("Time Out 1", "13:00:00"),
         ("Time In 2", "14:00:00"), ("Time Out 2", "18:30:00")] ∧
    calculate_stay_durations
        ((extract_multiple_in_out
            (some "09:00:00(in)13:00:00(out)14:00:00(in)18:30:00(out)")).map
          (fun p => (p.1, some p.2)))
      = [("Stay Duration 1", "04:00"), ("Stay Duration 2", "04:30")] := by
  decide

/-- C2: for every input string, extraction walks the regex matches in
left-to-right textual order with two independent 1-based counters: the j-th
element of the produced mapping corresponds to the j-th match, its key being
`Time In k` where `k - 1` counts the earlier in-tagged matches (resp.
`Time Out k` for out-tagged matches) — positional, not chronological,
pairing. -/
theorem claim_C2 (s : String) (j : Nat) (h : j < (findAll (lowerStr s).data).length) :
    (extract_multiple_in_out (some s)).length = (findAll (lowerStr s).data).length ∧
    (extract_multiple_in_out (some s)).get? j =
      some (match ((findAll (lowerStr s).data).get ⟨j, h⟩).2 with
            | Tag.tin => mkIn (1 + countTag Tag.tin ((findAll (lowerStr s).data).take j))
            | Tag.tout => mkOut (1 + countTag Tag.tout ((findAll (lowerStr s).data).take j)),
            ⟨((findAll (lowerStr s).data).get ⟨j, h⟩).1⟩) := by
  constructor
  · show (buildPunchDict (findAll (lowerStr s).data) 1 1).length = _
    exact buildPunchDict_length _ 1 1
  · show (buildPunchDict (findAll (lowerStr s).data) 1 1).get? j = _
    rw [buildPunchDict_get? _ 1 1 j h]

/-- C2 witness: the first match of `"09:00:00(in)13:00:00(out)"` is in-tagged
and receives key `Time In 1`. -/
theorem claim_C2_witness :
    (extract_multiple_in_out (some "09:00:00(in)13:00:00(out)")).get? 0
      = some ("Time In 1", "09:00:00") :=
  ((claim_C2 "09:00:00(in)13:00:00(out)" 0 (by decide)).2).trans (by decide)

/-- C3 counterexample: for the two-row Punch Records column
`["09:00:00(in)10:00:00(in)", "11:00:00(out)"]` the expanded table has exactly
one complete Time In / Time Out column pair, while the greatest count of
tagged tokens in a single row is 2 (and the greatest per-row count of complete
token pairs is 0), so the pair count does not equal the per-row token
maximum. -/
theorem claim_C3_cex :
    pairCount (expandedCols [some "09:00:00(in)10:00:00(in)", some "11:00:00(out)"]) = 1 ∧
    maxTokens [some "09:00:00(in)10:00:00(in)", some "11:00:00(out)"] = 2 ∧
    maxRowPairs [some "09:00:00(in)10:00:00(in)", some "11:00:00(out)"] = 0 ∧
    pairCount (expandedCols [some "09:00:00(in)10:00:00(in)", some "11:00:00(out)"])
      ≠ maxTokens [some "09:00:00(in)10:00:00(in)", some "11:00:00(out)"] := by
  decide

/-- C3 (amended): the synthesized `Time In i` columns are exactly those with
`1 ≤ i ≤` the greatest per-row count of in-tagged tokens, the `Time Out i`
columns those with `1 ≤ i ≤` the greatest per-row count of out-tagged tokens,
and hence the number of complete `Time In i`/`Time Out i` column pairs is the
minimum of those two maxima. -/
theorem claim_C3 (cells : List (Option String)) :
    (∀ i, 1 ≤ i → (mkIn i ∈ expandedCols cells ↔ i ≤ maxIn cells)) ∧
    (∀ i, 1 ≤ i → (mkOut i ∈ expandedCols cells ↔ i ≤ maxOut cells)) ∧
    pairCount (expandedCols cells) = min (maxIn cells) (maxOut cells) := by
  refine ⟨?_, ?_, pairCount_expandedCols cells⟩
  · intro i hi
    rw [mem_expandedCols]
    constructor
    · rintro (⟨j, _, h2, hj⟩ | ⟨j, _, _, hj⟩)
      · rw [mkIn_inj hj]
        exact h2
      · exact absurd hj (mkIn_ne_mkOut i j)
    · intro h
      exact Or.inl ⟨i, hi, h, rfl⟩
  · intro i hi
    rw [mem_expandedCols]
    constructor
    · rintro (⟨j, _, _, hj⟩ | ⟨j, _, h2, hj⟩)
      · exact absurd hj.symm (mkIn_ne_mkOut j i)
      · rw [mkOut_inj hj]
        exact h2
    · intro h
      exact Or.inr ⟨i, hi, h, rfl⟩

/-- C3 witness: on the one-row column `["09:00:00(in)13:00:00(out)"]` the
pair count equals `min maxIn maxOut` and `Time In 1` is a column. -/
theorem claim_C3_witness :
    pairCount (expandedCols [some "09:00:00(in)13:00:00(out)"])
      = min (maxIn [some "09:00:00(in)13:00:00(out)"])
          (maxOut [some "09:00:00(in)13:00:00(out)"]) ∧
    (mkIn 1 ∈ expandedCols [some "09:00:00(in)13:00:00(out)"]
      ↔ 1 ≤ maxIn [some "09:00:00(in)13:00:00(out)"]) :=
  ⟨(claim_C3 [some "09:00:00(in)13:00:00(out)"]).2.2,
   (claim_C3 [some "09:00:00(in)13:00:00(out)"]).1 1 (by decide)⟩

/-- C4: `find_header_row` returns the index of the first row among the first
10 rows whose stringified, lowercased cells contain the substring
"punch records", and `none` when no such row exists, in which case processing
fails with the missing-header error. -/
theorem claim_C4 (df : List (List (Option String))) (i : Nat) :
    (find_header_row df = some i ↔
      i < min 10 df.length ∧ (∃ r, df[i]? = some r ∧ rowHasPunch r = true) ∧
        ∀ j r', j < i → df[j]? = some r' → rowHasPunch r' = false) ∧
    (find_header_row df = none →
      processTable df = Except.error ProcError.missingHeader) := by
  constructor
  · exact find_header_row_some_iff df i
  · intro h
    unfold processTable
    rw [h]

/-- C4 witness: a table with no "punch records" cell fails with the
missing-header error. -/
theorem claim_C4_witness :
    processTable [[some "x"]] = Except.error ProcError.missingHeader :=
  (claim_C4 [[some "x"]] 0).2 (by decide)

/-- C5: whenever duration calculation produces a Stay Duration i entry whose
in or out cell is blank/undefined or fails to parse as a time (`cellSecs`
being `none` exactly in those cases), the produced value is the empty string
— the parse failure never escapes the per-cell computation. -/
theorem claim_C5 (row : List (String × Option String)) (i : Nat) (v : String)
    (hmem : (mkStay i, v) ∈ calculate_stay_durations row)
    (hfail : cellSecs row (mkIn i) = none ∨ cellSecs row (mkOut i) = none) :
    v = "" := by
  obtain ⟨j, _, hk, hv⟩ := calcLoop_mem row (row.length + 1) 1 (mkStay i) v hmem
  rw [hv, show j = i from (mkStay_inj hk).symm]
  exact durFor_blank_of_none row i hfail

/-- C5 witness: the row with Time In 1 = "99:99:99" (unparseable) and
Time Out 1 = "10:00:00" gets a blank Stay Duration 1. -/
theorem claim_C5_witness :
    ∃ v, (mkStay 1, v) ∈ calculate_stay_durations
        [("Time In 1", some "99:99:99"), ("Time Out 1", some "10:00:00")] ∧ v = "" :=
  ⟨"", by decide,
    claim_C5 [("Time In 1", some "99:99:99"), ("Time Out 1", some "10:00:00")] 1 ""
      (by decide) (Or.inl (by decide))⟩

/-- C6 counterexample: the out-of-clock-range token "25:99:00(in)" is not
excluded: it matches the shape pattern and contributes a Time In entry. -/
theorem claim_C6_cex :
    extract_multiple_in_out (some "25:99:00(in)") = [("Time In 1", "25:99:00")] ∧
    extract_multiple_in_out (some "25:99:00(in)") ≠ [] := by
  decide

/-- C6 (amended): the pattern requires only the digit-count shape, not a valid
clock range: an out-of-range token of valid shape such as "25:99:00(in)" is
matched and contributes a Time In entry, while a token violating the
digit-count shape such as "5:9:00(in)" contributes nothing. -/
theorem claim_C6 :
    extract_multiple_in_out (some "25:99:00(in)") = [("Time In 1", "25:99:00")] ∧
    extract_multiple_in_out (some "5:9:00(in)") = [] := by
  decide

/-- C7: for the cell "99:99:99(in)10:00:00(out)" extraction matches the shape
and populates Time In 1 with "99:99:99", the time parse of that value fails,
and the Stay Duration 1 cell is the empty string. -/
theorem claim_C7 :
    extract_multiple_in_out (some "99:99:99(in)10:00:00(out)")
      = [("Time In 1", "99:99:99"), ("Time Out 1", "10:00:00")] ∧
    timeSecs? "99:99:99" = none ∧
    calculate_stay_durations
        ((extract_multiple_in_out (some "99:99:99(in)10:00:00(out)")).map
          (fun p => (p.1, some p.2)))
      = [("Stay Duration 1", "")] := by
  decide

/-- C8 counterexample: on the columns `["A", "Time In 1x"]` the code keeps the
pattern-matching column "Time In 1x" in the output, while the claimed layout
(fixed columns, then per group the columns Time In i / Time Out i /
Stay Duration i that exist) drops it, so the claim as stated fails. -/
theorem claim_C8_cex :
    reorderedCols ["A", "Time In 1x"] = ["A", "Time In 1x"] ∧
    specReorder ["A", "Time In 1x"] = ["A"] ∧
    reorderedCols ["A", "Time In 1x"] ≠ specReorder ["A", "Time In 1x"] := by
  decide

/-- C8 (amended): when every pattern-matching column name is exactly of the
synthesized form and the column labels are pairwise distinct, the reordering
emits the fixed columns first in original order, then for each group index in
ascending numeric order the columns Time In i, Time Out i, Stay Duration i in
that order, skipping any of the three that does not exist in the table.
(With a matching but non-synthesized name the code emits that matched column
instead, and with duplicated labels the final selection fans each repeated
label out to all its columns.) -/
theorem claim_C8 (cols : List String) (hs : synthOnly cols = true)
    (hnd : cols.Nodup) : reorderedCols cols = specReorder cols :=
  reorder_normal cols hs hnd

/-- C8 witness: a concrete synthesized-form table with a ragged second group. -/
theorem claim_C8_witness :
    reorderedCols ["Name", "Time In 1", "Time Out 1", "Stay Duration 1", "Time In 2"]
      = specReorder ["Name", "Time In 1", "Time Out 1", "Stay Duration 1", "Time In 2"] :=
  claim_C8 ["Name", "Time In 1", "Time Out 1", "Stay Duration 1", "Time In 2"]
    (by decide) (by decide)

/-- C9: `find_header_row` is total and safe: it depends only on the first 10
rows, returns none on the empty table, and any returned index is below
`min 10 (number of rows)`. -/
theorem claim_C9 (df : List (List (Option String))) :
    find_header_row df = find_header_row (df.take 10) ∧
    (df = [] → find_header_row df = none) ∧
    (∀ i, find_header_row df = some i → i < min 10 df.length) := by
  refine ⟨find_header_row_take10 df, ?_, ?_⟩
  · rintro rfl
    decide
  · intro i h
    exact ((find_header_row_some_iff df i).mp h).1

/-- C9 witness: a one-row table whose header is found at index 0. -/
theorem claim_C9_witness :
    find_header_row [[some "Punch Records"]]
      = find_header_row ([[some "Punch Records"]].take 10) ∧
    0 < min 10 ([[some "Punch Records"]] : List (List (Option String))).length :=
  ⟨(claim_C9 [[some "Punch Records"]]).1,
   (claim_C9 [[some "Punch Records"]]).2.2 0 (by decide)⟩

/-- C10 counterexample: the table with duplicated fixed column labels
`["A", "A"]` has only synthesized-form punch columns (none at all), yet the
selection `df_clean[["A", "A"]]` fans each "A" of the selection list out to
both "A" columns of the frame, producing four columns — not a permutation of
the input. -/
theorem claim_C10_cex :
    synthOnly ["A", "A"] = true ∧
    reorderedCols ["A", "A"] = ["A", "A", "A", "A"] ∧
    ¬(reorderedCols ["A", "A"]).Perm ["A", "A"] := by
  refine ⟨by decide, by decide, ?_⟩
  intro h
  have := h.length_eq
  rw [show reorderedCols ["A", "A"] = ["A", "A", "A", "A"] from by decide] at this
  simp at this

/-- C10 (amended): for tables whose pattern-matching column names are exactly
of the synthesized forms and whose column labels are pairwise distinct, the
column reordering is a permutation: the output has the same multiset of
columns as the input, none dropped and none duplicated.  With duplicated
labels the duplicate-label selection duplicates each repeated column. -/
theorem claim_C10 (cols : List String) (hs : synthOnly cols = true)
    (hnd : cols.Nodup) : (reorderedCols cols).Perm cols :=
  reorderedCols_perm cols hs hnd

/-- C10 witness: the reorder of a concrete synthesized-form table is a
permutation of its columns. -/
theorem claim_C10_witness :
    (reorderedCols ["Name", "Stay Duration 1", "Time Out 1", "Time In 1", "Time In 2"]).Perm
      ["Name", "Stay Duration 1", "Time Out 1", "Time In 1", "Time In 2"] :=
  claim_C10 ["Name", "Stay Duration 1", "Time Out 1", "Time In 1", "Time In 2"]
    (by decide) (by decide)

end PunchPro
